import Mathlib

/-!
# Verification of the yeti asynchronous logger

Shallow embedding of the yeti logging library (src/src/logger.cc and the
yeti.cc / macro.h translation units) together with proofs about its claims:
the format-substitution engine `_CreateLogStr`, the environment-variable
level parser `Logger::LogLevelFromEnv`, the level-filtering macros
(CRT/ERR/WRN/INF/DBG/TRC), the message-id counter protocol, the
worker `Logger::ProcessingLoop` with `Flush` and `Shutdown`, and the
per-task output composition in `_EnqueueLogTask`.

Strings are modelled as `List Char`.  The C++ `while`-loops of the
substitution engine are given explicit fuel and return `Option`: `none`
models an execution that has not finished within the given number of
iterations, so `(∀ fuel, ... = none)` states genuine non-termination.
-/

namespace Yeti

/-! ## String primitives (std::string::find / std::string::replace) -/

/-- `leadMatch pat s` is true when `pat` is a leading segment of `s`
(the elementary comparison behind `std::string::find`). -/
def leadMatch : List Char → List Char → Bool
  | [], _ => true
  | _ :: _, [] => false
  | p :: ps, c :: cs => (p == c) && leadMatch ps cs

/-- `strFind s pat` models `s.find(pat)`: the index of the leftmost
occurrence of `pat` in `s`, `none` standing for `std::string::npos`. -/
def strFind : List Char → List Char → Option Nat
  | [], pat => if leadMatch pat [] then some 0 else none
  | c :: rest, pat =>
    if leadMatch pat (c :: rest) then some 0
    else (strFind rest pat).map (fun n => n + 1)

/-- `splice s pos len repl` models `s.replace(pos, len, repl)`. -/
def splice (s : List Char) (pos len : Nat) (repl : List Char) : List Char :=
  s.take pos ++ repl ++ s.drop (pos + len)

/-- The inner loop of `_CreateLogStr` (yeti.cc lines 184-186):
`while ((pos = result.find(entry.first)) != std::string::npos)
   result.replace(pos, entry.first.length(), entry.second);`
with explicit fuel; `none` means the loop did not finish in `fuel`
iterations. -/
def replaceLoop : Nat → List Char → List Char → List Char → Option (List Char)
  | fuel, s, pat, repl =>
    match strFind s pat with
    | none => some s
    | some pos =>
      match fuel with
      | 0 => none
      | f + 1 => replaceLoop f (splice s pos pat.length repl) pat repl

/-- The outer loop of `_CreateLogStr` (yeti.cc line 183):
`for (const auto& entry : subs) ...`, one `replaceLoop` per map entry. -/
def runSubs (fuel : Nat) : List (List Char × List Char) → List Char → Option (List Char)
  | [], s => some s
  | e :: rest, s =>
    match replaceLoop fuel s e.1 e.2 with
    | none => none
    | some s2 => runSubs fuel rest s2

/-! ## The recognized placeholder tokens -/

def dateTok : List Char := "%(DATE)".data
def fileTok : List Char := "%(FILENAME)".data
def funcTok : List Char := "%(FUNCNAME)".data
def levelTok : List Char := "%(LEVEL)".data
def lineTok : List Char := "%(LINE)".data
def msgTok : List Char := "%(MSG)".data
def msgIdTok : List Char := "%(MSG_ID)".data
def pidTok : List Char := "%(PID)".data
def tidTok : List Char := "%(TID)".data
def timeTok : List Char := "%(TIME)".data

/-- All recognized tokens, in the iteration order of the
`std::map<std::string, std::string> subs` of `_CreateLogStr`
(lexicographic order of the keys). -/
def allTokens : List (List Char) :=
  [dateTok, fileTok, funcTok, levelTok, lineTok, msgTok, msgIdTok, pidTok,
   tidTok, timeTok]

/-! ## LogData and _CreateLogStr -/

/-- The `yeti::LogData` record (macro.h lines 252-265).  The fields the
C++ renders through environment-dependent library calls
(`std::hash<std::thread::id>`, `strftime`/`localtime`) are modelled as the
already-rendered strings `tidStr`, `dateStr`, `timeStr`; numeric fields
rendered with `std::to_string` are kept as numbers. -/
structure LogData where
  logFormat : List Char
  level : List Char
  filename : List Char
  funcname : List Char
  msg : List Char
  pid : Nat
  tidStr : List Char
  dateStr : List Char
  timeStr : List Char
  line : Nat
  msgId : Nat
deriving DecidableEq

/-- One conditional insertion into `subs`:
`if (log_data->log_format.find(tok) != std::string::npos) subs[tok] = v;`. -/
def condEntry (d : LogData) (t v : List Char) : List (List Char × List Char) :=
  if (strFind d.logFormat t).isSome then [(t, v)] else []

/-- The `subs` map of `_CreateLogStr` (yeti.cc lines 135-179), listed in
its `std::map` iteration order (sorted keys): `%(LEVEL)`, `%(FILENAME)`,
`%(FUNCNAME)` and `%(MSG)` are inserted unconditionally, the remaining
tokens only when they occur in the format string. -/
def subsList (d : LogData) : List (List Char × List Char) :=
  condEntry d dateTok d.dateStr ++
  [(fileTok, d.filename), (funcTok, d.funcname), (levelTok, d.level)] ++
  condEntry d lineTok (Nat.repr d.line).data ++
  [(msgTok, d.msg)] ++
  condEntry d msgIdTok (Nat.repr d.msgId).data ++
  condEntry d pidTok (Nat.repr d.pid).data ++
  condEntry d tidTok d.tidStr ++
  condEntry d timeTok d.timeStr

/-- `_CreateLogStr` (yeti.cc lines 134-189): starting from
`result = log_data->log_format`, run every substitution entry in map
order.  `none` models non-termination of an inner `while` loop. -/
def createLogStr (fuel : Nat) (d : LogData) : Option (List Char) :=
  runSubs fuel (subsList d) d.logFormat

/-! ## Log levels and the dispatch decision of the call-site macros -/

/-- The `yeti::LogLevel` enumeration.  Modelled from the spec: the
enumerator list lives in a header that is not part of the sources here;
the spec fixes the severity order TRACE < DEBUG < INFO < WARNING <
ERROR < CRITICAL, and the macros compare `GetLogLevel() >=
LOG_LEVEL_X`, which forces the enum ordinals to grow with verbosity
(CRITICAL lowest, TRACE highest) for the documented default (INFO
passes INF/WRN/ERR and suppresses DBG/TRC) to hold. -/
inductive LogLevel
  | critical
  | error
  | warning
  | info
  | debug
  | trace
deriving DecidableEq

/-- Modelled from the spec: the integral value of each `LOG_LEVEL_*`
enumerator (see `LogLevel`). -/
def levelOrd : LogLevel → Nat
  | LogLevel.critical => 0
  | LogLevel.error => 1
  | LogLevel.warning => 2
  | LogLevel.info => 3
  | LogLevel.debug => 4
  | LogLevel.trace => 5

/-- Severity rank taken from the spec sentence "TRACE < DEBUG < INFO <
WARNING < ERROR < CRITICAL" (most verbose = least severe). -/
def severity : LogLevel → Nat
  | LogLevel.trace => 0
  | LogLevel.debug => 1
  | LogLevel.info => 2
  | LogLevel.warning => 3
  | LogLevel.error => 4
  | LogLevel.critical => 5

/-- Which macro produced a record: CRT/ERR/WRN/INF/DBG/TRC
(macro.h lines 292-422). -/
inductive CallLevel
  | crt
  | err
  | wrn
  | inf
  | dbg
  | trc
deriving DecidableEq

/-- The level a call-site macro corresponds to. -/
def callLevelOf : CallLevel → LogLevel
  | CallLevel.crt => LogLevel.critical
  | CallLevel.err => LogLevel.error
  | CallLevel.wrn => LogLevel.warning
  | CallLevel.inf => LogLevel.info
  | CallLevel.dbg => LogLevel.debug
  | CallLevel.trc => LogLevel.trace

/-- The dispatch condition of each macro.  `CRT` (macro.h lines 292-307)
has no check at all; every other macro guards the record construction
with `if (yeti::GetLogLevel() >= yeti::LOG_LEVEL_X)`. -/
def shouldDispatch (cur : LogLevel) : CallLevel → Bool
  | CallLevel.crt => true
  | CallLevel.err => decide (levelOrd cur ≥ levelOrd LogLevel.error)
  | CallLevel.wrn => decide (levelOrd cur ≥ levelOrd LogLevel.warning)
  | CallLevel.inf => decide (levelOrd cur ≥ levelOrd LogLevel.info)
  | CallLevel.dbg => decide (levelOrd cur ≥ levelOrd LogLevel.debug)
  | CallLevel.trc => decide (levelOrd cur ≥ levelOrd LogLevel.trace)

/-! ## The logger facade state and one call-site macro execution -/

/-- The logger state visible to a call-site macro: the message-id
counter, the current minimum level and the task queue (plus the
configuration fields, to state frame conditions). -/
structure FacadeSt where
  msgId : Nat
  level : LogLevel
  colored : Bool
  formatStr : List Char
  queue : List (CallLevel × Nat × List Char)
deriving DecidableEq

/-- Sequential semantics of one logging macro invocation
(macro.h lines 312-330 and analogues): read the counter
(`_GetMsgId()`), increment it (`_IncMsgId()`), then—only if the level
check passes—build the record carrying the previously read id and
enqueue it (`_EnqueueLogTask`).  `CRT` reads, increments and enqueues
unconditionally, which `shouldDispatch _ .crt = true` reproduces. -/
def logCall (st : FacadeSt) (cl : CallLevel) (msg : List Char) : FacadeSt :=
  let readId := st.msgId
  let st1 : FacadeSt := { st with msgId := st.msgId + 1 }
  if shouldDispatch st1.level cl then
    { st1 with queue := st1.queue ++ [(cl, readId, msg)] }
  else st1

/-! ## Logger::LogLevelFromEnv (logger.cc lines 52-84) -/

/-- `s.find(pat) != std::string::npos` as a boolean. -/
def hasSub (s pat : List Char) : Bool := (strFind s pat).isSome

/-- The `level_dict` of `Logger::LogLevelFromEnv`, listed in the
iteration order of `std::map<std::vector<std::string>, LogLevel>`
(lexicographic order of the key vectors: CRIT.. < DEBUG.. < ERR.. <
INF.. < TRACE.. < WARN..). -/
def levelGroups : List (List (List Char) × LogLevel) :=
  [(["CRIT".data, "CRT".data, "crit".data, "crt".data], LogLevel.critical),
   (["DEBUG".data, "DBG".data, "debug".data, "dbg".data], LogLevel.debug),
   (["ERR".data, "err".data], LogLevel.error),
   (["INF".data, "inf".data], LogLevel.info),
   (["TRACE".data, "TRC".data, "trace".data, "trc".data], LogLevel.trace),
   (["WARN".data, "WRN".data, "warn".data, "wrn".data], LogLevel.warning)]

/-- `Logger::LogLevelFromEnv`: `nullptr` gives INFO; otherwise the first
dictionary entry (in map order) one of whose spellings is a substring of
the environment value decides the level; no match gives INFO. -/
def logLevelFromEnv : Option (List Char) → LogLevel
  | none => LogLevel.info
  | some s =>
    match levelGroups.find? (fun g => g.1.any (fun sp => hasSub s sp)) with
    | some g => g.2
    | none => LogLevel.info

/-- Modelled from the spec: "case-insensitive substring match against
recognized tokens" — `pat` occurs in `s` when both are lowered. -/
def ciSubstrSpec (s pat : List Char) : Bool :=
  hasSub (s.map Char.toLower) (pat.map Char.toLower)

/-! ## The print task's output composition (_EnqueueLogTask, yeti.cc 199-212) -/

/-- `YETI_RESET` = `"\033[0m"` (macro.h line 248). -/
def yetiReset : List Char := "\x1b[0m".data

/-- The per-macro ANSI color code stored into the record
(macro.h: CRT→`YETI_LRED`, ERR→`YETI_LPURPLE`, WRN→`YETI_YELLOW`,
INF→`YETI_LGREEN`, DBG→`YETI_WHITE`, TRC→`""`). -/
def colorOf : CallLevel → List Char
  | CallLevel.crt => "\x1b[1;31m".data
  | CallLevel.err => "\x1b[1;35m".data
  | CallLevel.wrn => "\x1b[1;33m".data
  | CallLevel.inf => "\x1b[1;32m".data
  | CallLevel.dbg => "\x1b[1;37m".data
  | CallLevel.trc => "".data

/-- The `log_str` a print task composes (yeti.cc lines 199-212):
`log_str = _CreateLogStr(log_data) + "\n"; if (isatty(..) && is_colored)
log_str = color + log_str + YETI_RESET;`.  This is the string handed to
`std::fprintf` — see `taskWrite` for the bytes actually written. -/
def composeLogLine (formatted : List Char) (cl : CallLevel)
    (isTty isColored : Bool) : List Char :=
  let base := formatted ++ ['\n']
  if isTty && isColored then colorOf cl ++ base ++ yetiReset else base

/-- The write itself is `std::fprintf(log_data->fd, log_str.c_str())`
(yeti.cc line 211): `log_str` is passed as the printf FORMAT string with
no further arguments (macro.h lines 217-221 silence `-Wformat-security`
for exactly this).  printf renders the format: ordinary characters are
copied, `%%` emits one `%`, and any other `%`-directive either consumes
a missing variadic argument (`%s`, `%d`, `%n`, ...) or is an invalid
conversion (such as the `%(` of a leftover token): either way the write
is undefined, modelled as `none`. -/
def fprintfRender : List Char → Option (List Char)
  | [] => some []
  | c :: rest =>
    if c = '%' then
      match rest with
      | c2 :: rest2 =>
        if c2 = '%' then (fprintfRender rest2).map (fun out => '%' :: out)
        else none
      | [] => none
    else (fprintfRender rest).map (fun out => c :: out)

/-- The bytes a print task writes to the captured stream: printf's
rendering of the composed log string. -/
def taskWrite (formatted : List Char) (cl : CallLevel)
    (isTty isColored : Bool) : Option (List Char) :=
  fprintfRender (composeLogLine formatted cl isTty isColored)

/-! ## The message-id read/increment race (macro.h lines 312-314)

Each macro performs `__yeti_msg_id__ = yeti::_GetMsgId();` followed by
`yeti::_IncMsgId();` — two separate operations on the shared counter.
Two threads A and B each execute one macro; a schedule is the list of
thread choices, each choice running that thread's next atomic step
(first the read, then the increment). -/

structure RaceSt where
  counter : Nat
  idA : Option Nat
  idB : Option Nat
  pcA : Nat
  pcB : Nat
deriving DecidableEq

def raceInit : RaceSt := ⟨0, none, none, 0, 0⟩

/-- One scheduler choice: `false` runs thread A's next step, `true`
thread B's.  Step 0 is `_GetMsgId()` (read into the local
`__yeti_msg_id__`), step 1 is `_IncMsgId()`. -/
def raceStep (s : RaceSt) (who : Bool) : RaceSt :=
  if who then
    match s.pcB with
    | 0 => { s with idB := some s.counter, pcB := 1 }
    | 1 => { s with counter := s.counter + 1, pcB := 2 }
    | _ => s
  else
    match s.pcA with
    | 0 => { s with idA := some s.counter, pcA := 1 }
    | 1 => { s with counter := s.counter + 1, pcA := 2 }
    | _ => s

def raceRun (s : RaceSt) : List Bool → RaceSt
  | [] => s
  | w :: ws => raceRun (raceStep s w) ws

/-! ## The processing loop, Flush and Shutdown (logger.cc 115-170)

Interleaving small-step model of `Logger::ProcessingLoop` together with
the producer-side `EnqueueTask` and the `Shutdown` stop-flag write.
Tasks are identified by numbers; `done` records executed tasks in
execution order.  The worker's program counter:

* `waiting`  — blocked in `cv_.wait` (line 128);
* `executing`— draining the execution list (lines 139-142);
* `checking` — at the `do`-`while` condition (line 143);
* `halted`   — the loop has exited.

The drain (lines 131-135) happens under the queue mutex the worker
already holds when `cv_.wait` returns, so wake-up plus drain is one
atomic step with respect to producers; each `exec_list_.front()();
exec_list_.pop_front();` pair is one step (emptiness of the execution
list only becomes observable after the pop). -/

inductive WPc
  | waiting
  | executing
  | checking
  | halted
deriving DecidableEq

structure LoopCfg where
  queue : List Nat
  execList : List Nat
  done : List Nat
  stopFlag : Bool
  pc : WPc
deriving DecidableEq

/-- Scheduler labels: a producer finishing `EnqueueTask i` (the push
under `queue_mutex_`, logger.cc lines 109-113), the worker taking its
next step, or `Shutdown` writing `stop_loop_ = true` (line 117). -/
inductive LAct
  | enq (i : Nat)
  | work
  | setStop
deriving DecidableEq

def lstep (c : LoopCfg) : LAct → Option LoopCfg
  | LAct.enq i => some { c with queue := c.queue ++ [i] }
  | LAct.setStop => some { c with stopFlag := true }
  | LAct.work =>
    match c.pc with
    | WPc.waiting =>
      if !c.queue.isEmpty || c.stopFlag then
        some { c with execList := c.execList ++ c.queue, queue := [],
                      pc := WPc.executing }
      else none
    | WPc.executing =>
      match c.execList with
      | [] => some { c with pc := WPc.checking }
      | t :: rest => some { c with done := c.done ++ [t], execList := rest }
    | WPc.checking =>
      if !c.stopFlag || !c.queue.isEmpty then some { c with pc := WPc.waiting }
      else some { c with pc := WPc.halted }
    | WPc.halted => none

def lrun (c : LoopCfg) : List LAct → Option LoopCfg
  | [] => some c
  | a :: ls =>
    match lstep c a with
    | none => none
    | some c1 => lrun c1 ls

/-- The logger starts with empty queue and execution list, the stop flag
clear and the worker waiting. -/
def initCfg : LoopCfg := ⟨[], [], [], false, WPc.waiting⟩

/-- The task ids enqueued by a schedule, in the order the enqueue calls
acquired the queue lock. -/
def enqSeq : List LAct → List Nat
  | [] => []
  | LAct.enq i :: ls => i :: enqSeq ls
  | _ :: ls => enqSeq ls

/-- The `do`-`while` condition of `Logger::Flush` (logger.cc line 159):
keep spinning while `!IsQueueEmpty() || !IsExecListEmpty()`. -/
def flushSpinsAgain (queueEmpty execEmpty : Bool) : Bool :=
  !queueEmpty || !execEmpty

/-! ## Token shape: `%(NAME)` with a bracket-free name -/

/-- A character that may appear inside a placeholder name: anything but
`%`, `(` and `)`. -/
def bracketFree (n : List Char) : Prop :=
  ∀ c ∈ n, c ≠ '%' ∧ c ≠ '(' ∧ c ≠ ')'

instance (n : List Char) : Decidable (bracketFree n) := by
  unfold bracketFree; infer_instance

/-- Build the token text `%(NAME)` from a name. -/
def tokOf (n : List Char) : List Char := '%' :: '(' :: (n ++ [')'])

/-- A string shaped like a placeholder token: `%(NAME)` for some
bracket-free name. -/
def tokenShaped (u : List Char) : Prop :=
  ∃ n, bracketFree n ∧ u = tokOf n

/-! ## Concrete records used for the format-engine claims -/

/-- A record whose FILENAME field value is the literal text `%(MSG)`:
the FILENAME pass injects it, the MSG pass (later in map order)
substitutes it again. -/
def fileInjectsMsg (m : List Char) : LogData :=
  { logFormat := "%(FILENAME)".data, level := "ERR".data,
    filename := "%(MSG)".data, funcname := "f".data, msg := m, pid := 1,
    tidStr := [], dateStr := [], timeStr := [], line := 1, msgId := 0 }

/-- A record whose message text is the literal token `%(MSG)` while the
template contains `%(MSG)`: the replace loop rescans from index 0,
re-finds the token inside its own replacement and never ends. -/
def selfRefData : LogData :=
  { logFormat := "%(MSG)".data, level := "CRT".data, filename := "f.cc".data,
    funcname := "g".data, msg := "%(MSG)".data, pid := 1, tidStr := [],
    dateStr := [], timeStr := [], line := 1, msgId := 0 }

/-! ## Concrete witnesses for the concurrency claims -/

/-- Trace for the flush witness: one task enqueued, drained and run. -/
def flushTraceW : List LAct := [LAct.enq 5, LAct.work, LAct.work, LAct.work]

/-- Configuration after `flushTraceW`. -/
def flushCfgW : LoopCfg := ⟨[], [], [5], false, WPc.checking⟩

/-- Trace for the shutdown witness, before the stop-flag write: two
enqueues, drain, run both, back to the loop condition. -/
def shutTrace1W : List LAct :=
  [LAct.enq 0, LAct.enq 1, LAct.work, LAct.work, LAct.work, LAct.work]

/-- Final configuration of the shutdown witness. -/
def shutCfgW : LoopCfg := ⟨[], [], [0, 1], true, WPc.halted⟩

/-- A record whose template mixes the unrecognized token `%(FOO)` with
the recognized `%(LEVEL)`. -/
def mixedTokData : LogData :=
  { logFormat := "%(FOO) %(LEVEL)".data, level := "INF".data,
    filename := "f".data, funcname := "g".data, msg := "m".data, pid := 1,
    tidStr := [], dateStr := [], timeStr := [], line := 1, msgId := 0 }

/-- A record whose template contains no recognized token at all. -/
def plainData : LogData :=
  { logFormat := "hello %(FOO) world".data, level := "INF".data,
    filename := "f".data, funcname := "g".data, msg := "m".data, pid := 1,
    tidStr := [], dateStr := [], timeStr := [], line := 1, msgId := 0 }

/-! ## Supporting lemmas -/

theorem leadMatch_iff (pat s : List Char) :
    leadMatch pat s = true ↔ ∃ r, s = pat ++ r := by
  induction pat generalizing s with
  | nil => simp [leadMatch]
  | cons p ps ih =>
    cases s with
    | nil =>
      simp [leadMatch]
    | cons c cs =>
      simp only [leadMatch, Bool.and_eq_true, beq_iff_eq, ih]
      constructor
      · rintro ⟨rfl, r, rfl⟩
        exact ⟨r, rfl⟩
      · rintro ⟨r, hr⟩
        rw [List.cons_append] at hr
        injection hr with h1 h2
        exact ⟨h1.symm, r, h2⟩

theorem strFind_some_spec {s pat : List Char} {i : Nat}
    (h : strFind s pat = some i) :
    ∃ x y, s = x ++ pat ++ y ∧ x.length = i := by
  induction s generalizing i with
  | nil =>
    rw [strFind] at h
    by_cases hl : leadMatch pat [] = true
    · rw [if_pos hl] at h
      obtain ⟨r, hr⟩ := (leadMatch_iff pat []).1 hl
      obtain ⟨hp, hrr⟩ := List.append_eq_nil.1 hr.symm
      refine ⟨[], [], by simp [hp], ?_⟩
      simpa using Option.some.inj h
    · rw [if_neg hl] at h; cases h
  | cons c cs ih =>
    rw [strFind] at h
    by_cases hl : leadMatch pat (c :: cs) = true
    · rw [if_pos hl] at h
      obtain ⟨r, hr⟩ := (leadMatch_iff pat (c :: cs)).1 hl
      refine ⟨[], r, by simpa using hr, ?_⟩
      simpa using Option.some.inj h
    · rw [if_neg hl] at h
      obtain ⟨j, hj, hji⟩ := Option.map_eq_some'.1 h
      obtain ⟨x, y, hxy, hx⟩ := ih hj
      exact ⟨c :: x, y, by simp [hxy], by simp [hx, hji]⟩

theorem splice_at_occ (x pat y repl : List Char) :
    splice (x ++ pat ++ y) x.length pat.length repl = x ++ repl ++ y := by
  unfold splice
  rw [List.append_assoc x pat y, List.take_left]
  have h2 : List.drop (x.length + pat.length) (x ++ (pat ++ y)) = y := by
    rw [← List.append_assoc]
    simp
  rw [h2]

theorem replaceLoop_no_occ {s pat : List Char} (repl : List Char) (fuel : Nat)
    (h : strFind s pat = none) : replaceLoop fuel s pat repl = some s := by
  rw [replaceLoop, h]

theorem runSubs_no_occ {entries : List (List Char × List Char)}
    {s : List Char} (fuel : Nat)
    (h : ∀ e ∈ entries, strFind s e.1 = none) :
    runSubs fuel entries s = some s := by
  induction entries with
  | nil => rfl
  | cons e rest ih =>
    rw [runSubs, replaceLoop_no_occ _ _ (h e (by simp))]
    exact ih (fun e' he' => h e' (by simp [he']))

theorem tok_eq_of_append {al be : List Char} (ha : bracketFree al)
    (hb : bracketFree be) {y b : List Char}
    (h : tokOf al ++ y = tokOf be ++ b) : al = be := by
  unfold tokOf at h
  simp only [List.cons_append, List.cons.injEq] at h
  obtain ⟨-, -, h⟩ := h
  rw [List.append_assoc, List.append_assoc, List.singleton_append,
    List.singleton_append] at h
  rcases Nat.lt_trichotomy al.length be.length with hlt | heq | hgt
  · rcases List.append_eq_append_iff.1 h with ⟨d, hd1, hd2⟩ | ⟨d, hd1, hd2⟩
    · cases d with
      | nil =>
        have := congrArg List.length hd1
        simp at this
        omega
      | cons d0 dtl =>
        injection hd2 with h0 _
        subst h0
        have hmem : (')' : Char) ∈ be := by
          rw [hd1]; exact List.mem_append_right _ (by simp)
        exact absurd rfl (hb _ hmem).2.2
    · have := congrArg List.length hd1
      simp at this
      omega
  · exact (List.append_inj h heq).1
  · rcases List.append_eq_append_iff.1 h.symm with ⟨d, hd1, hd2⟩ | ⟨d, hd1, hd2⟩
    · cases d with
      | nil =>
        have := congrArg List.length hd1
        simp at this
        omega
      | cons d0 dtl =>
        injection hd2 with h0 _
        subst h0
        have hmem : (')' : Char) ∈ al := by
          rw [hd1]; exact List.mem_append_right _ (by simp)
        exact absurd rfl (ha _ hmem).2.2
    · have := congrArg List.length hd1
      simp at this
      omega

theorem tok_overlap_shift {al be x y a b : List Char} (ha : bracketFree al)
    (h : x ++ tokOf al ++ y = a ++ tokOf be ++ b)
    (hlt : x.length < a.length)
    (h1 : a.length < x.length + (tokOf al).length) : False := by
  rw [List.append_assoc, List.append_assoc] at h
  rcases List.append_eq_append_iff.1 h with ⟨d, hd1, hd2⟩ | ⟨d, hd1, hd2⟩
  · -- a = x ++ d, tokOf al ++ y = d ++ (tokOf be ++ b)
    have hdlen : d.length < (tokOf al).length := by
      have := congrArg List.length hd1
      simp at this
      omega
    have hdne : d ≠ [] := by
      intro hnil
      have := congrArg List.length hd1
      simp [hnil] at this
      omega
    rcases List.append_eq_append_iff.1 hd2 with ⟨e, he1, he2⟩ | ⟨e, he1, he2⟩
    · -- d = tokOf al ++ e : too long
      have := congrArg List.length he1
      simp [tokOf] at this
      simp [tokOf] at hdlen
      omega
    · -- tokOf al = d ++ e, tokOf be ++ b = e ++ y
      have hene : e ≠ [] := by
        intro hnil
        have := congrArg List.length he1
        simp [hnil] at this
        omega
      obtain ⟨e0, etl, rfl⟩ := List.exists_cons_of_ne_nil hene
      obtain ⟨d0, dtl, rfl⟩ := List.exists_cons_of_ne_nil hdne
      -- head of e is the head of tokOf be, i.e. percent
      have he0 : e0 = '%' := by
        have : tokOf be ++ b = (e0 :: etl) ++ y := he2
        simp [tokOf] at this
        exact this.1.symm
      subst he0
      -- tokOf al = (d0 :: dtl) ++ ('%' :: etl)
      have h0 : '(' :: (al ++ [')']) = dtl ++ '%' :: etl := by
        have := he1
        simp [tokOf] at this
        exact this.2
      have hmem : ('%' : Char) ∈ '(' :: (al ++ [')']) := by
        rw [h0]
        exact List.mem_append_right _ (by simp)
      rcases List.mem_cons.1 hmem with hc | hc
      · exact absurd hc (by decide)
      · rcases List.mem_append.1 hc with hc2 | hc2
        · exact absurd rfl (ha _ hc2).1
        · simp at hc2
  · -- x = a ++ d : wrong side
    have := congrArg List.length hd1
    simp at this
    omega

theorem tok_no_overlap {al be x y a b : List Char} (ha : bracketFree al)
    (hb : bracketFree be)
    (h : x ++ tokOf al ++ y = a ++ tokOf be ++ b)
    (h1 : a.length < x.length + (tokOf al).length)
    (h2 : x.length < a.length + (tokOf be).length) :
    tokOf al = tokOf be := by
  rcases Nat.lt_trichotomy x.length a.length with hlt | heq | hgt
  · exact (tok_overlap_shift ha h hlt h1).elim
  · have hx : x = a := by
      rw [List.append_assoc, List.append_assoc] at h
      exact (List.append_inj h heq).1
    subst hx
    have h' : tokOf al ++ y = tokOf be ++ b := by
      rw [List.append_assoc, List.append_assoc] at h
      exact (List.append_inj h rfl).2
    rw [tok_eq_of_append ha hb h']
  · exact (tok_overlap_shift hb h.symm hgt h2).elim

theorem splice_keeps_copy {x y a b pat repl u : List Char}
    (hsp : tokenShaped pat) (hsu : tokenShaped u) (hne : pat ≠ u)
    (heq : a ++ u ++ b = x ++ pat ++ y) :
    List.IsInfix u (x ++ repl ++ y) := by
  obtain ⟨al, hal, rfl⟩ := hsp
  obtain ⟨be, hbe, rfl⟩ := hsu
  by_cases hc1 : x.length + (tokOf al).length ≤ a.length
  · -- the replaced occurrence lies before the tracked copy of u
    have h' : (x ++ tokOf al) ++ y = a ++ (tokOf be ++ b) := by
      have h0 := heq.symm
      rw [List.append_assoc a] at h0
      exact h0
    rcases List.append_eq_append_iff.1 h' with ⟨m, hm1, hm2⟩ | ⟨m, hm1, hm2⟩
    · -- a = (x ++ tokOf al) ++ m, y = m ++ (tokOf be ++ b)
      exact ⟨x ++ repl ++ m, b, by rw [hm2]; simp⟩
    · -- x ++ tokOf al = a ++ m with |x ++ tokOf al| ≤ |a| forces m = []
      have hlen1 := congrArg List.length hm1
      simp only [List.length_append] at hlen1
      have hm0 : m = [] := List.eq_nil_of_length_eq_zero (by omega)
      subst hm0
      have hy : tokOf be ++ b = y := by simpa using hm2
      exact ⟨x ++ repl, b, by rw [← hy]; simp⟩
  · by_cases hc2 : a.length + (tokOf be).length ≤ x.length
    · -- the replaced occurrence lies after the tracked copy of u
      have h' : (a ++ tokOf be) ++ b = x ++ (tokOf al ++ y) := by
        have h0 := heq
        rw [List.append_assoc x] at h0
        exact h0
      rcases List.append_eq_append_iff.1 h' with ⟨m, hm1, hm2⟩ | ⟨m, hm1, hm2⟩
      · -- x = (a ++ tokOf be) ++ m
        exact ⟨a, m ++ repl ++ y, by rw [hm1]; simp⟩
      · have hlen1 := congrArg List.length hm1
        simp only [List.length_append] at hlen1
        have hm0 : m = [] := List.eq_nil_of_length_eq_zero (by omega)
        subst hm0
        have hx : a ++ tokOf be = x := by simpa using hm1
        exact ⟨a, repl ++ y, by rw [← hx]; simp⟩
    · -- genuine overlap: impossible for distinct shaped tokens
      push_neg at hc1 hc2
      have := tok_no_overlap hal hbe heq.symm (by omega) (by omega)
      exact absurd this hne

theorem replaceLoop_found {f : Nat} {s pat : List Char} {i : Nat}
    (repl : List Char) (h : strFind s pat = some i) :
    replaceLoop (f + 1) s pat repl =
      replaceLoop f (splice s i pat.length repl) pat repl := by
  rw [replaceLoop, h]

theorem replaceLoop_stuck {s pat : List Char} {i : Nat} (repl : List Char)
    (h : strFind s pat = some i) : replaceLoop 0 s pat repl = none := by
  rw [replaceLoop, h]

theorem replaceLoop_keeps_copy {fuel : Nat} {s pat repl u out : List Char}
    (hsp : tokenShaped pat) (hsu : tokenShaped u) (hne : pat ≠ u)
    (h : replaceLoop fuel s pat repl = some out)
    (hinf : List.IsInfix u s) : List.IsInfix u out := by
  induction fuel generalizing s with
  | zero =>
    cases hf : strFind s pat with
    | none =>
      rw [replaceLoop_no_occ _ _ hf] at h
      cases h
      exact hinf
    | some i =>
      rw [replaceLoop_stuck _ hf] at h
      cases h
  | succ f ih =>
    cases hf : strFind s pat with
    | none =>
      rw [replaceLoop_no_occ _ _ hf] at h
      cases h
      exact hinf
    | some i =>
      rw [replaceLoop_found _ hf] at h
      obtain ⟨x, y, hxy, hlen⟩ := strFind_some_spec hf
      obtain ⟨a, b, hab⟩ := hinf
      have hsplice : splice s i pat.length repl = x ++ repl ++ y := by
        rw [hxy, ← hlen]
        exact splice_at_occ x pat y repl
      rw [hsplice] at h
      exact ih h (splice_keeps_copy hsp hsu hne (by rw [hab, hxy]))

theorem runSubs_keeps_copy {fuel : Nat}
    {entries : List (List Char × List Char)} {s out u : List Char}
    (hent : ∀ e ∈ entries, tokenShaped e.1 ∧ e.1 ≠ u)
    (hsu : tokenShaped u)
    (h : runSubs fuel entries s = some out)
    (hinf : List.IsInfix u s) : List.IsInfix u out := by
  induction entries generalizing s with
  | nil =>
    cases h
    exact hinf
  | cons e rest ih =>
    rw [runSubs] at h
    cases hr : replaceLoop fuel s e.1 e.2 with
    | none => rw [hr] at h; cases h
    | some s2 =>
      rw [hr] at h
      have he := hent e (by simp)
      exact ih (fun e' he' => hent e' (by simp [he'])) h
        (replaceLoop_keeps_copy he.1 hsu he.2 hr hinf)

theorem allTokens_shaped {t : List Char} (ht : t ∈ allTokens) :
    tokenShaped t := by
  simp [allTokens] at ht
  rcases ht with rfl | rfl | rfl | rfl | rfl | rfl | rfl | rfl | rfl | rfl
  · exact ⟨"DATE".data, by decide, by decide⟩
  · exact ⟨"FILENAME".data, by decide, by decide⟩
  · exact ⟨"FUNCNAME".data, by decide, by decide⟩
  · exact ⟨"LEVEL".data, by decide, by decide⟩
  · exact ⟨"LINE".data, by decide, by decide⟩
  · exact ⟨"MSG".data, by decide, by decide⟩
  · exact ⟨"MSG_ID".data, by decide, by decide⟩
  · exact ⟨"PID".data, by decide, by decide⟩
  · exact ⟨"TID".data, by decide, by decide⟩
  · exact ⟨"TIME".data, by decide, by decide⟩

theorem condEntry_mem {d : LogData} {t v : List Char}
    {e : List Char × List Char} (he : e ∈ condEntry d t v) : e = (t, v) := by
  unfold condEntry at he
  split at he <;> simp_all

theorem subsList_fst_mem {d : LogData} {e : List Char × List Char}
    (he : e ∈ subsList d) : e.1 ∈ allTokens := by
  unfold subsList at he
  simp only [List.mem_append] at he
  rcases he with ((((((h | h) | h) | h) | h) | h) | h) | h
  · rw [condEntry_mem h]; simp [allTokens]
  · simp at h
    rcases h with rfl | rfl | rfl <;> simp [allTokens]
  · rw [condEntry_mem h]; simp [allTokens]
  · simp at h
    subst h
    simp [allTokens]
  · rw [condEntry_mem h]; simp [allTokens]
  · rw [condEntry_mem h]; simp [allTokens]
  · rw [condEntry_mem h]; simp [allTokens]
  · rw [condEntry_mem h]; simp [allTokens]

theorem lstep_conserves {c c1 : LoopCfg} {a : LAct} (h : lstep c a = some c1) :
    c1.done ++ c1.execList ++ c1.queue =
      c.done ++ c.execList ++ c.queue ++ enqSeq [a] := by
  obtain ⟨q, ex, dn, st, pc⟩ := c
  cases a with
  | enq i => cases h; simp [enqSeq]
  | setStop => cases h; simp [enqSeq]
  | work =>
    cases pc with
    | waiting =>
      simp only [lstep] at h
      split at h
      · cases h; simp [enqSeq]
      · cases h
    | executing =>
      cases ex with
      | nil => simp only [lstep] at h; cases h; simp [enqSeq]
      | cons t rest => simp only [lstep] at h; cases h; simp [enqSeq]
    | checking =>
      simp only [lstep] at h
      split at h <;> (cases h; simp [enqSeq])
    | halted => simp only [lstep] at h; cases h

theorem lrun_conserves {ls : List LAct} {c c' : LoopCfg}
    (h : lrun c ls = some c') :
    c'.done ++ c'.execList ++ c'.queue =
      c.done ++ c.execList ++ c.queue ++ enqSeq ls := by
  induction ls generalizing c with
  | nil => cases h; simp [enqSeq]
  | cons a ls ih =>
    rw [lrun] at h
    cases hs : lstep c a with
    | none => rw [hs] at h; cases h
    | some c1 =>
      rw [hs] at h
      have h1 := lstep_conserves hs
      have h2 := ih h
      rw [h2, h1]
      cases a <;> simp [enqSeq]

theorem lstep_exec_inv {c c1 : LoopCfg} {a : LAct} (h : lstep c a = some c1)
    (hc : c.pc ≠ WPc.executing → c.execList = []) :
    c1.pc ≠ WPc.executing → c1.execList = [] := by
  obtain ⟨q, ex, dn, st, pc⟩ := c
  cases a with
  | enq i => cases h; exact hc
  | setStop => cases h; exact hc
  | work =>
    cases pc with
    | waiting =>
      simp only [lstep] at h
      split at h
      · cases h; intro hne; exact absurd rfl hne
      · cases h
    | executing =>
      cases ex with
      | nil => simp only [lstep] at h; cases h; intro _; rfl
      | cons t rest =>
        simp only [lstep] at h; cases h; intro hne; exact absurd rfl hne
    | checking =>
      simp only [lstep] at h
      split at h <;> (cases h; intro _; exact hc (by simp))
    | halted => simp only [lstep] at h; cases h

theorem lrun_exec_inv {ls : List LAct} {c c' : LoopCfg}
    (h : lrun c ls = some c')
    (hc : c.pc ≠ WPc.executing → c.execList = []) :
    c'.pc ≠ WPc.executing → c'.execList = [] := by
  induction ls generalizing c with
  | nil => cases h; exact hc
  | cons a ls ih =>
    rw [lrun] at h
    cases hs : lstep c a with
    | none => rw [hs] at h; cases h
    | some c1 =>
      rw [hs] at h
      exact ih h (lstep_exec_inv hs hc)

theorem lstep_queue_empty {c c1 : LoopCfg} {a : LAct} (h : lstep c a = some c1)
    (hna : ∀ i, a ≠ LAct.enq i) (hq : c.queue = []) : c1.queue = [] := by
  obtain ⟨q, ex, dn, st, pc⟩ := c
  cases a with
  | enq i => exact absurd rfl (hna i)
  | setStop => cases h; exact hq
  | work =>
    cases pc with
    | waiting =>
      simp only [lstep] at h
      split at h
      · cases h; rfl
      · cases h
    | executing =>
      cases ex with
      | nil => simp only [lstep] at h; cases h; exact hq
      | cons t rest => simp only [lstep] at h; cases h; exact hq
    | checking =>
      simp only [lstep] at h
      split at h <;> (cases h; exact hq)
    | halted => simp only [lstep] at h; cases h

theorem lrun_queue_empty {ls : List LAct} {c c' : LoopCfg}
    (h : lrun c ls = some c') (hna : ∀ i, LAct.enq i ∉ ls)
    (hq : c.queue = []) : c'.queue = [] := by
  induction ls generalizing c with
  | nil => cases h; exact hq
  | cons a ls ih =>
    rw [lrun] at h
    cases hs : lstep c a with
    | none => rw [hs] at h; cases h
    | some c1 =>
      rw [hs] at h
      refine ih h (fun i hi => hna i (by simp [hi])) ?_
      exact lstep_queue_empty hs (fun i hai => hna i (by simp [hai])) hq

theorem lstep_stop_stable {c c1 : LoopCfg} {a : LAct} (h : lstep c a = some c1)
    (ha : a ≠ LAct.setStop) : c1.stopFlag = c.stopFlag := by
  obtain ⟨q, ex, dn, st, pc⟩ := c
  cases a with
  | enq i => cases h; rfl
  | setStop => exact absurd rfl ha
  | work =>
    cases pc with
    | waiting =>
      simp only [lstep] at h
      split at h
      · cases h; rfl
      · cases h
    | executing =>
      cases ex with
      | nil => simp only [lstep] at h; cases h; rfl
      | cons t rest => simp only [lstep] at h; cases h; rfl
    | checking =>
      simp only [lstep] at h
      split at h <;> (cases h; rfl)
    | halted => simp only [lstep] at h; cases h

theorem lstep_not_halted {c c1 : LoopCfg} {a : LAct} (h : lstep c a = some c1)
    (hst : c1.stopFlag = false) (hc : c.pc ≠ WPc.halted) :
    c1.pc ≠ WPc.halted := by
  obtain ⟨q, ex, dn, st, pc⟩ := c
  cases a with
  | enq i => cases h; exact hc
  | setStop => cases h; exact hc
  | work =>
    cases pc with
    | waiting =>
      simp only [lstep] at h
      split at h
      · cases h; simp
      · cases h
    | executing =>
      cases ex with
      | nil => simp only [lstep] at h; cases h; simp
      | cons t rest => simp only [lstep] at h; cases h; simp
    | checking =>
      simp only [lstep] at h
      split at h
      · cases h; simp
      · cases h
        rename_i hcond
        simp at hcond
        simp [hcond.1] at hst
    | halted => simp only [lstep] at h; cases h

theorem lrun_not_halted {ls : List LAct} {c c' : LoopCfg}
    (h : lrun c ls = some c') (hst : c.stopFlag = false)
    (hns : LAct.setStop ∉ ls) (hc : c.pc ≠ WPc.halted) :
    c'.pc ≠ WPc.halted := by
  induction ls generalizing c with
  | nil => cases h; exact hc
  | cons a ls ih =>
    rw [lrun] at h
    cases hs : lstep c a with
    | none => rw [hs] at h; cases h
    | some c1 =>
      rw [hs] at h
      have hstop1 : c1.stopFlag = false := by
        rw [lstep_stop_stable hs (fun hae => hns (by simp [hae]))]
        exact hst
      exact ih h hstop1 (fun hi => hns (by simp [hi]))
        (lstep_not_halted hs hstop1 hc)

theorem lstep_halted_queue {c c1 : LoopCfg} {a : LAct}
    (h : lstep c a = some c1) (hna : ∀ i, a ≠ LAct.enq i)
    (hc : c.pc = WPc.halted → c.queue = []) :
    c1.pc = WPc.halted → c1.queue = [] := by
  obtain ⟨q, ex, dn, st, pc⟩ := c
  cases a with
  | enq i => exact absurd rfl (hna i)
  | setStop => cases h; exact hc
  | work =>
    cases pc with
    | waiting =>
      simp only [lstep] at h
      split at h
      · cases h; intro hcontra; cases hcontra
      · cases h
    | executing =>
      cases ex with
      | nil => simp only [lstep] at h; cases h; intro hcontra; cases hcontra
      | cons t rest => simp only [lstep] at h; cases h; intro hcontra; cases hcontra
    | checking =>
      simp only [lstep] at h
      split at h
      · cases h; intro hcontra; cases hcontra
      · cases h
        rename_i hcond
        simp at hcond
        intro _
        exact hcond.2
    | halted => simp only [lstep] at h; cases h

theorem lrun_halted_queue {ls : List LAct} {c c' : LoopCfg}
    (h : lrun c ls = some c') (hna : ∀ i, LAct.enq i ∉ ls)
    (hc : c.pc = WPc.halted → c.queue = []) :
    c'.pc = WPc.halted → c'.queue = [] := by
  induction ls generalizing c with
  | nil => cases h; exact hc
  | cons a ls ih =>
    rw [lrun] at h
    cases hs : lstep c a with
    | none => rw [hs] at h; cases h
    | some c1 =>
      rw [hs] at h
      refine ih h (fun i hi => hna i (by simp [hi])) ?_
      exact lstep_halted_queue hs (fun i hai => hna i (by simp [hai])) hc

theorem enqSeq_append (l1 l2 : List LAct) :
    enqSeq (l1 ++ l2) = enqSeq l1 ++ enqSeq l2 := by
  induction l1 with
  | nil => rfl
  | cons a ls ih => cases a <;> simp [enqSeq, ih]

theorem enqSeq_of_no_enq {ls : List LAct} (h : ∀ i, LAct.enq i ∉ ls) :
    enqSeq ls = [] := by
  induction ls with
  | nil => rfl
  | cons a ls ih =>
    cases a with
    | enq i => exact absurd (by simp) (h i)
    | work => exact ih (fun i hi => h i (by simp [hi]))
    | setStop => exact ih (fun i hi => h i (by simp [hi]))

theorem lrun_append (c : LoopCfg) (l1 l2 : List LAct) :
    lrun c (l1 ++ l2) = (lrun c l1).bind (fun c1 => lrun c1 l2) := by
  induction l1 generalizing c with
  | nil => rfl
  | cons a ls ih =>
    rw [List.cons_append, lrun, lrun]
    cases hs : lstep c a with
    | none => rfl
    | some c1 => exact ih c1

theorem lrun_stop_stable {ls : List LAct} {c c' : LoopCfg}
    (h : lrun c ls = some c') (hns : LAct.setStop ∉ ls) :
    c'.stopFlag = c.stopFlag := by
  induction ls generalizing c with
  | nil => cases h; rfl
  | cons a ls ih =>
    rw [lrun] at h
    cases hs : lstep c a with
    | none => rw [hs] at h; cases h
    | some c1 =>
      rw [hs] at h
      rw [ih h (fun hi => hns (by simp [hi]))]
      exact lstep_stop_stable hs (fun hae => hns (by simp [hae]))

theorem fprintfRender_cons (c : Char) (rest : List Char) :
    fprintfRender (c :: rest) =
      if c = '%' then
        (match rest with
         | c2 :: rest2 =>
           if c2 = '%' then (fprintfRender rest2).map (fun out => '%' :: out)
           else none
         | [] => none)
      else (fprintfRender rest).map (fun out => c :: out) := by
  rw [fprintfRender.eq_def]

theorem fprintfRender_no_pct {s : List Char} (h : ('%' : Char) ∉ s) :
    fprintfRender s = some s := by
  induction s with
  | nil => rfl
  | cons c rest ih =>
    have hc : c ≠ '%' := by
      intro hcc
      exact h (by simp [hcc])
    rw [fprintfRender_cons, if_neg hc,
      ih (fun hm => h (List.mem_cons_of_mem _ hm))]
    rfl

/-! ## The claims -/

/-- C1: for every schedule whose enqueues all happen before `Flush`
observes an empty queue (`c1.queue = []` is the successful
`IsQueueEmpty` read) and an empty execution list afterwards
(`c2.execList = []` is the successful `IsExecListEmpty` read, with no
further enqueues in between), every enqueued task has executed exactly
once, in the order the enqueue calls acquired the queue lock; and the
`Flush` spin condition is false exactly when both containers report
empty. -/
theorem flush_exactly_once_in_lock_order
    (ls1 ls2 : List LAct) (c1 c2 : LoopCfg)
    (h1 : lrun initCfg ls1 = some c1)
    (hq : c1.queue = [])
    (h2 : lrun c1 ls2 = some c2)
    (hne : ∀ i, LAct.enq i ∉ ls2)
    (he : c2.execList = []) :
    c2.done = enqSeq ls1 ∧ c2.queue = [] ∧
    (∀ qe ee : Bool, flushSpinsAgain qe ee = false ↔ (qe = true ∧ ee = true)) := by
  have hq2 : c2.queue = [] := lrun_queue_empty h2 hne hq
  have hc1 := lrun_conserves h1
  have hc2 := lrun_conserves h2
  rw [enqSeq_of_no_enq hne, List.append_nil] at hc2
  refine ⟨?_, hq2, by decide⟩
  rw [hc1] at hc2
  rw [he, hq2] at hc2
  simp only [initCfg, List.append_nil, List.nil_append] at hc2
  simpa using hc2

/-- C3: (1) the worker's loop exits only from the loop-condition check
with the stop flag set, the queue empty and the execution list empty;
(2) when every enqueue precedes the `Shutdown` stop-flag write and the
worker is observed halted (which is when `thread_.join()` returns), every
task enqueued before shutdown has executed exactly once, in enqueue
order, and nothing remains queued. -/
theorem shutdown_drains_all_tasks :
    (∀ (ls : List LAct) (c c2 : LoopCfg),
        lrun initCfg ls = some c → lstep c LAct.work = some c2 →
        c2.pc = WPc.halted →
        c.stopFlag = true ∧ c.queue = [] ∧ c.execList = []) ∧
    (∀ (ls1 ls2 : List LAct) (c' : LoopCfg),
        lrun initCfg (ls1 ++ LAct.setStop :: ls2) = some c' →
        LAct.setStop ∉ ls1 →
        (∀ i, LAct.enq i ∉ ls2) →
        c'.pc = WPc.halted →
        c'.done = enqSeq ls1 ∧ c'.queue = [] ∧ c'.execList = []) := by
  constructor
  · intro ls c c2 hrun hstep hhalt
    have hexec : c.pc ≠ WPc.executing → c.execList = [] :=
      lrun_exec_inv hrun (fun _ => rfl)
    obtain ⟨q, ex, dn, st, pc⟩ := c
    cases pc with
    | waiting =>
      simp only [lstep] at hstep
      split at hstep
      · cases hstep; cases hhalt
      · cases hstep
    | executing =>
      cases ex with
      | nil => simp only [lstep] at hstep; cases hstep; cases hhalt
      | cons t rest => simp only [lstep] at hstep; cases hstep; cases hhalt
    | checking =>
      simp only [lstep] at hstep
      split at hstep
      · cases hstep; cases hhalt
      · cases hstep
        rename_i hcond
        simp at hcond
        refine ⟨hcond.1, hcond.2, hexec (by simp)⟩
    | halted => simp only [lstep] at hstep; cases hstep
  · intro ls1 ls2 c' h hns1 hne2 hhalt
    have hfull := h
    rw [lrun_append] at h
    cases hm : lrun initCfg ls1 with
    | none => rw [hm] at h; cases h
    | some cm =>
      rw [hm] at h
      simp only [Option.bind] at h
      have hmpc : cm.pc ≠ WPc.halted :=
        lrun_not_halted hm rfl hns1 (by decide)
      have hsstep : lstep cm LAct.setStop = some { cm with stopFlag := true } := rfl
      simp only [lrun, hsstep] at h
      have hq' : c'.queue = [] := by
        refine lrun_halted_queue h hne2 ?_ hhalt
        intro hcontra
        exact absurd hcontra hmpc
      have hex' : c'.execList = [] :=
        lrun_exec_inv hfull (fun _ => rfl) (by rw [hhalt]; simp)
      refine ⟨?_, hq', hex'⟩
      have hcons := lrun_conserves hfull
      rw [enqSeq_append] at hcons
      have henq2 : enqSeq (LAct.setStop :: ls2) = [] := by
        rw [show enqSeq (LAct.setStop :: ls2) = enqSeq ls2 from rfl]
        exact enqSeq_of_no_enq hne2
      rw [henq2, List.append_nil, hq', hex'] at hcons
      simp only [initCfg, List.append_nil, List.nil_append] at hcons
      simpa using hcons

/-- Witness for C1 at a concrete schedule: enqueue task 5, drain it, run
it; the flush observations see empty queue and empty execution list, and
the task has run exactly once. -/
theorem flush_exactly_once_in_lock_order_witness :
    flushCfgW.done = [5] ∧ flushCfgW.queue = [] := by
  have h := flush_exactly_once_in_lock_order flushTraceW [] flushCfgW flushCfgW
    (by decide) (by decide) rfl (fun i => List.not_mem_nil _) (by decide)
  exact ⟨h.1, h.2.1⟩

/-- Witness for C3 at a concrete schedule: two tasks enqueued before the
stop-flag write; once halted, both have executed in order. -/
theorem shutdown_drains_all_tasks_witness :
    shutCfgW.done = [0, 1] ∧ shutCfgW.queue = [] := by
  have h := shutdown_drains_all_tasks.2 shutTrace1W [LAct.work] shutCfgW
    (by decide) (by decide) (fun i => by simp) (by decide)
  exact ⟨h.1, h.2.1⟩

/-- C4: a record is dispatched iff its severity is at or above the
severity of the current minimum level, and the CRT macro dispatches
unconditionally (it has no level check at all). -/
theorem dispatch_iff_at_or_above_minimum :
    (∀ cur : LogLevel, shouldDispatch cur CallLevel.crt = true) ∧
    (∀ (cur : LogLevel) (cl : CallLevel),
        shouldDispatch cur cl = true ↔
          (cl = CallLevel.crt ∨ severity (callLevelOf cl) ≥ severity cur)) := by
  constructor
  · intro cur; rfl
  · intro cur cl
    cases cur <;> cases cl <;> decide

/-- C5 (evaluation of the code at the failing interleaving): with two
threads each running one macro, the schedule read-A, read-B, inc-A,
inc-B completes both calls yet assigns message id 0 to both records —
the ids are not pairwise distinct. -/
theorem msgId_race_duplicates :
    (raceRun raceInit [false, true, false, true]).pcA = 2 ∧
    (raceRun raceInit [false, true, false, true]).pcB = 2 ∧
    (raceRun raceInit [false, true, false, true]).idA = some 0 ∧
    (raceRun raceInit [false, true, false, true]).idB = some 0 := by
  decide

/-- C6: every macro invocation increments the message-id counter exactly
once (the increment precedes the level check), and a suppressed
invocation changes nothing else: the resulting state is exactly the old
state with the counter bumped — in particular no task is enqueued. -/
theorem suppressed_call_increments_only (st : FacadeSt) (cl : CallLevel)
    (m : List Char) :
    (logCall st cl m).msgId = st.msgId + 1 ∧
    (shouldDispatch st.level cl = false →
      logCall st cl m = { st with msgId := st.msgId + 1 }) := by
  constructor
  · simp only [logCall]
    split <;> rfl
  · intro hsup
    simp [logCall, hsup]

/-- Witness for C6: a DBG call with minimum level INFO is suppressed and
only bumps the counter. -/
theorem suppressed_call_increments_only_witness :
    logCall ⟨0, LogLevel.info, true, [], []⟩ CallLevel.dbg [] =
      ⟨1, LogLevel.info, true, [], []⟩ := by
  have h := (suppressed_call_increments_only ⟨0, LogLevel.info, true, [], []⟩
    CallLevel.dbg []).2 (by decide)
  simpa using h

/-- C7 counterexample: the value `Trace` case-insensitively contains the
recognized token `TRACE`, yet `LogLevelFromEnv` returns INFO, not TRACE —
the match is not case-insensitive. -/
theorem logLevelFromEnv_not_case_insensitive :
    logLevelFromEnv (some "Trace".data) = LogLevel.info ∧
    ciSubstrSpec "Trace".data "TRACE".data = true ∧
    LogLevel.info ≠ LogLevel.trace := by
  decide

/-- C7 (amended): the level is determined by a case-sensitive substring
match against the fixed upper- and lower-case spellings of
`level_dict`; an unset variable or one containing no spelling silently
defaults to INFO, and any non-INFO result is witnessed by a spelling of
that level occurring in the value. -/
theorem logLevelFromEnv_case_sensitive_match :
    logLevelFromEnv none = LogLevel.info ∧
    (∀ s : List Char,
        (∀ g ∈ levelGroups, ∀ sp ∈ g.1, hasSub s sp = false) →
        logLevelFromEnv (some s) = LogLevel.info) ∧
    (∀ (s : List Char) (l : LogLevel),
        logLevelFromEnv (some s) = l →
        l = LogLevel.info ∨
          ∃ g ∈ levelGroups, g.2 = l ∧ ∃ sp ∈ g.1, hasSub s sp = true) := by
  refine ⟨rfl, ?_, ?_⟩
  · intro s hnone
    simp only [logLevelFromEnv]
    have hfind : levelGroups.find? (fun g => g.1.any (fun sp => hasSub s sp)) = none := by
      rw [List.find?_eq_none]
      intro g hg
      simp only [List.any_eq_true, not_exists]
      intro sp hsp
      have h2 := hsp.2
      rw [hnone g hg sp hsp.1] at h2
      exact absurd h2 (by decide)
    rw [hfind]
  · intro s l h
    simp only [logLevelFromEnv] at h
    cases hf : levelGroups.find? (fun g => g.1.any (fun sp => hasSub s sp)) with
    | none => rw [hf] at h; exact Or.inl h.symm
    | some g =>
      rw [hf] at h
      right
      refine ⟨g, List.mem_of_find?_eq_some hf, h, ?_⟩
      have hp := List.find?_some hf
      simpa [List.any_eq_true] using hp

/-- Witness for C7 (amended): a value containing no spelling falls back
to INFO. -/
theorem logLevelFromEnv_case_sensitive_match_witness :
    logLevelFromEnv (some "hello".data) = LogLevel.info :=
  logLevelFromEnv_case_sensitive_match.2.1 "hello".data (by decide)

/-- C8: (1) on a template in which no recognized token occurs, the
format engine is the identity; (2) any token-shaped substring `%(NAME)`
of the template whose text is not a recognized token survives verbatim
into the output. -/
theorem format_engine_identity_and_verbatim :
    (∀ (d : LogData) (fuel : Nat),
        (∀ t ∈ allTokens, strFind d.logFormat t = none) →
        createLogStr fuel d = some d.logFormat) ∧
    (∀ (d : LogData) (fuel : Nat) (u out : List Char),
        tokenShaped u → u ∉ allTokens →
        List.IsInfix u d.logFormat →
        createLogStr fuel d = some out →
        List.IsInfix u out) := by
  constructor
  · intro d fuel h
    exact runSubs_no_occ fuel (fun e he => h e.1 (subsList_fst_mem he))
  · intro d fuel u out hsu hnotin hinf h
    refine runSubs_keeps_copy ?_ hsu h hinf
    intro e he
    have hm := subsList_fst_mem he
    exact ⟨allTokens_shaped hm, fun heq => hnotin (heq ▸ hm)⟩

/-- Witness for C8: a token-free template passes through unchanged, and
the unrecognized `%(FOO)` survives next to a substituted `%(LEVEL)`. -/
theorem format_engine_identity_and_verbatim_witness :
    createLogStr 3 plainData = some plainData.logFormat ∧
    List.IsInfix "%(FOO)".data "%(FOO) INF".data := by
  constructor
  · exact format_engine_identity_and_verbatim.1 plainData 3 (by decide)
  · exact format_engine_identity_and_verbatim.2 mixedTokData 4 "%(FOO)".data
      "%(FOO) INF".data ⟨"FOO".data, by decide, by decide⟩ (by decide)
      ⟨[], " %(LEVEL)".data, by decide⟩ (by decide)

/-- C2 counterexample: with template `%(FILENAME)`, filename value
`%(MSG)` and message `hello`, the engine outputs `hello`: the FILENAME
pass injects the literal token text `%(MSG)` and the later MSG pass
substitutes it again, contradicting "never substituted again". -/
theorem resubstitution_counterexample :
    createLogStr 8 (fileInjectsMsg "hello".data) = some "hello".data ∧
    strFind "hello".data msgTok = none := by
  decide

/-- C2 (amended): tokens are substituted one map entry at a time in
lexicographic key order, each entry with its own rescanning loop; a
replacement value containing the literal text of a token processed later
in that order is substituted again by the later pass — here the FILENAME
pass injects `%(MSG)` and the MSG pass then replaces it with the
message, for every message text that does not itself contain `%(MSG)`. -/
theorem later_token_resubstituted (m : List Char) (f : Nat)
    (hm : strFind m msgTok = none) :
    createLogStr (f + 1) (fileInjectsMsg m) = some m := by
  have hsubs : subsList (fileInjectsMsg m) =
      [(fileTok, "%(MSG)".data), (funcTok, "f".data), (levelTok, "ERR".data),
       (msgTok, m)] := rfl
  have hlf : (fileInjectsMsg m).logFormat = "%(FILENAME)".data := rfl
  unfold createLogStr
  rw [hsubs, hlf]
  have hp1 : replaceLoop (f + 1) "%(FILENAME)".data fileTok "%(MSG)".data =
      some "%(MSG)".data := by
    rw [replaceLoop_found _ (by decide : strFind "%(FILENAME)".data fileTok = some 0)]
    have hsplice : splice "%(FILENAME)".data 0 fileTok.length "%(MSG)".data =
        "%(MSG)".data := by decide
    rw [hsplice]
    exact replaceLoop_no_occ _ _ (by decide)
  have hp2 : replaceLoop (f + 1) "%(MSG)".data funcTok "f".data =
      some "%(MSG)".data := replaceLoop_no_occ _ _ (by decide)
  have hp3 : replaceLoop (f + 1) "%(MSG)".data levelTok "ERR".data =
      some "%(MSG)".data := replaceLoop_no_occ _ _ (by decide)
  have hp4 : replaceLoop (f + 1) "%(MSG)".data msgTok m = some m := by
    rw [replaceLoop_found _ (by decide : strFind "%(MSG)".data msgTok = some 0)]
    have hsplice : splice "%(MSG)".data 0 msgTok.length m = m := by
      unfold splice
      have hdrop : List.drop (0 + msgTok.length) "%(MSG)".data = [] := by decide
      rw [hdrop]
      simp
    rw [hsplice]
    exact replaceLoop_no_occ _ _ hm
  simp only [runSubs, hp1, hp2, hp3, hp4]

/-- Witness for C2 (amended) at message `hello`. -/
theorem later_token_resubstituted_witness :
    createLogStr 8 (fileInjectsMsg "hello".data) = some "hello".data :=
  later_token_resubstituted "hello".data 7 (by decide)

/-- C10: when the message text is the literal token `%(MSG)` and the
template contains `%(MSG)`, the MSG pass rescans from index 0, re-finds
the token inside its own replacement and never terminates: the engine
returns no result at any iteration budget. -/
theorem createLogStr_diverges_on_self_token :
    ∀ fuel : Nat, createLogStr fuel selfRefData = none := by
  have hloop : ∀ f : Nat,
      replaceLoop f "%(MSG)".data msgTok "%(MSG)".data = none := by
    intro f
    induction f with
    | zero => exact replaceLoop_stuck _ (show strFind "%(MSG)".data msgTok = some 0 by decide)
    | succ f ih =>
      rw [replaceLoop_found _ (by decide : strFind "%(MSG)".data msgTok = some 0)]
      have hsplice : splice "%(MSG)".data 0 msgTok.length "%(MSG)".data =
          "%(MSG)".data := by decide
      rw [hsplice]
      exact ih
  intro fuel
  have hsubs : subsList selfRefData =
      [(fileTok, "f.cc".data), (funcTok, "g".data), (levelTok, "CRT".data),
       (msgTok, "%(MSG)".data)] := rfl
  have hlf : selfRefData.logFormat = "%(MSG)".data := rfl
  unfold createLogStr
  rw [hsubs, hlf]
  have hp1 : replaceLoop fuel "%(MSG)".data fileTok "f.cc".data =
      some "%(MSG)".data := replaceLoop_no_occ _ _ (by decide)
  have hp2 : replaceLoop fuel "%(MSG)".data funcTok "g".data =
      some "%(MSG)".data := replaceLoop_no_occ _ _ (by decide)
  have hp3 : replaceLoop fuel "%(MSG)".data levelTok "CRT".data =
      some "%(MSG)".data := replaceLoop_no_occ _ _ (by decide)
  simp only [runSubs, hp1, hp2, hp3, hloop]

/-- C9 counterexample: two refutations of the output contract as
stated.  With color active the written bytes end with the reset escape
(final byte `m`) placed after the terminating newline, so the colored
write is neither newline-terminated nor reset-at-line-end; and a
formatted line containing the leftover token `%(FOO)` makes `fprintf`
treat `%(` as a conversion directive — there is no defined write of the
line at all, instead of the line appearing verbatim. -/
theorem print_task_output_counterexample :
    (taskWrite "x".data CallLevel.err true true =
        some (colorOf CallLevel.err ++ ("x".data ++ ['\n']) ++ yetiReset) ∧
      (colorOf CallLevel.err ++ ("x".data ++ ['\n']) ++ yetiReset).getLast? =
        some 'm' ∧
      ('m' : Char) ≠ '\n') ∧
    taskWrite "%(FOO)".data CallLevel.err false false = none := by
  decide

/-- C9 (amended): the task hands the composed string — line, newline,
and, on a color terminal, the color code in front and the reset escape
after the newline — to `fprintf` as its format string with no
arguments, so the bytes written equal the composed string only when it
is free of `%`-directives.  For a percent-free formatted line the
uncolored write is the line plus one newline, the colored write is
color ++ line ++ newline ++ reset (the reset follows the terminating
newline), and exactly one newline is written either way. -/
theorem taskWrite_shape (fm : List Char) (cl : CallLevel) (tty col : Bool)
    (hpc : ('%' : Char) ∉ fm) :
    ((tty && col) = false → taskWrite fm cl tty col = some (fm ++ ['\n'])) ∧
    ((tty && col) = true →
      taskWrite fm cl tty col =
        some (colorOf cl ++ (fm ++ ['\n']) ++ yetiReset)) ∧
    (('\n' : Char) ∉ fm → ∀ out, taskWrite fm cl tty col = some out →
      out.count '\n' = 1) := by
  have hline : ('%' : Char) ∉ fm ++ ['\n'] := by
    intro hm
    rcases List.mem_append.1 hm with hm | hm
    · exact hpc hm
    · simp at hm
  have hcolor : ('%' : Char) ∉ colorOf cl := by cases cl <;> decide
  have hreset : ('%' : Char) ∉ yetiReset := by decide
  have hfull : ('%' : Char) ∉ colorOf cl ++ (fm ++ ['\n']) ++ yetiReset := by
    intro hm
    rcases List.mem_append.1 hm with hm | hm
    · rcases List.mem_append.1 hm with hm | hm
      · exact hcolor hm
      · exact hline hm
    · exact hreset hm
  have w1 : (tty && col) = false →
      taskWrite fm cl tty col = some (fm ++ ['\n']) := by
    intro h
    simp only [taskWrite, composeLogLine, h]
    rw [if_neg (by simp)]
    exact fprintfRender_no_pct hline
  have w2 : (tty && col) = true →
      taskWrite fm cl tty col =
        some (colorOf cl ++ (fm ++ ['\n']) ++ yetiReset) := by
    intro h
    simp only [taskWrite, composeLogLine, h]
    rw [if_pos trivial]
    exact fprintfRender_no_pct hfull
  refine ⟨w1, w2, ?_⟩
  intro hnl out hout
  have hnlc : ('\n' : Char) ∉ colorOf cl := by cases cl <;> decide
  have hnlr : ('\n' : Char) ∉ yetiReset := by decide
  rcases Bool.eq_false_or_eq_true (tty && col) with htc | htc
  · rw [w2 htc] at hout
    obtain rfl := Option.some.inj hout
    simp [List.count_append, List.count_eq_zero_of_not_mem, hnl, hnlc, hnlr]
  · rw [w1 htc] at hout
    obtain rfl := Option.some.inj hout
    simp [List.count_append, List.count_eq_zero_of_not_mem, hnl]

/-- Witness for C9 (amended) for an ERR record with a percent-free
line, colored and uncolored, including the one-newline count. -/
theorem taskWrite_shape_witness :
    taskWrite "x".data CallLevel.err true true =
      some (colorOf CallLevel.err ++ ("x".data ++ ['\n']) ++ yetiReset) ∧
    taskWrite "x".data CallLevel.err false true = some ("x".data ++ ['\n']) ∧
    (colorOf CallLevel.err ++ ("x".data ++ ['\n']) ++ yetiReset).count '\n' = 1 := by
  refine ⟨?_, ?_, ?_⟩
  · exact (taskWrite_shape "x".data CallLevel.err true true (by decide)).2.1
      (by decide)
  · exact (taskWrite_shape "x".data CallLevel.err false true (by decide)).1
      (by decide)
  · exact (taskWrite_shape "x".data CallLevel.err true true (by decide)).2.2
      (by decide)
      (colorOf CallLevel.err ++ ("x".data ++ ['\n']) ++ yetiReset)
      ((taskWrite_shape "x".data CallLevel.err true true (by decide)).2.1
        (by decide))

end Yeti
